import Mathlib

/-!
Shallow embedding of the WhileLang runtime support layer
(`src/swen430as4/src/whilelang/runtime/runtime.c`).

Memory is modelled as a word-addressed heap `Nat → Int`: each address
holds one signed 64-bit slot (an `int64_t` word in the C source; no
arithmetic is performed on the words, only copies and equality tests,
so no wrap-around modelling is needed).  A C pointer `int64_t*` is an
address (`Nat`); the cast `(int64_t*)w` of a payload word `w` back to a
pointer is `Int.toNat`.

Each C function is translated directly:
  * `intcmp`  — flat-array structural equality (lines 9–29)
  * `intcpy`  — flat-array shallow clone (lines 34–47)
  * `intfill` — flat-array bulk fill (lines 52–59)
  * `objcmp`  — tagged-object recursive equality (lines 65–92); since
    the C recursion can diverge on cyclic graphs, the embedding takes a
    fuel parameter and returns `none` when fuel is exhausted
  * `objcpy`  — tagged-object shallow clone (lines 97–110)
  * `objfill` — tagged-object bulk fill (lines 115–123)
  * `assertion` — runtime assert (lines 129–131); the C abort is
    modelled as `none`, normal return as `some ()`.

Loops are translated to structural recursion on the (non-negative)
iteration count: a C loop `for(i=0;i<len;...)` with `int64_t len` runs
`len.toNat` times, which also captures the zero iterations performed
when `len` is negative.
-/

namespace Runtime

/-- The heap: every word address holds a 64-bit word. -/
abbrev Heap := Nat → Int

/-- A single store `obj[addr] = v`. -/
def writeWord (h : Heap) (addr : Nat) (v : Int) : Heap :=
  fun x => if x = addr then v else h x

/-- The element loop of C `intcmp`: compares `k` payload words starting
at offset `j` (the C loop body `if(obj1[j] != obj2[j]) return 0; j=j+1`). -/
def intcmpLoop (h : Heap) (a b : Nat) : Nat → Nat → Int
  | _, 0 => 1
  | j, Nat.succ k => if h (a + j) ≠ h (b + j) then 0 else intcmpLoop h a b (j + 1) k

/-- C `intcmp`: length short-circuit, then element-wise scan. -/
def intcmp (h : Heap) (a b : Nat) : Int :=
  if h a ≠ h b then 0 else intcmpLoop h a b 1 (h a).toNat

/-- The copy loop shared by C `intcpy`/`objcpy`: `cpy[i] = obj[i]` for
`i = 0 .. n-1`, reading from the heap as it is being written (as the C
code does). -/
def copyWords (h : Heap) (src dst : Nat) : Nat → Heap
  | 0 => h
  | Nat.succ n =>
      writeWord (copyWords h src dst n) (dst + n) (copyWords h src dst n (src + n))

/-- C `intcpy`: the fresh block `c` receives `n = 1 + len` words
(header plus payload).  The address `c` of the freshly `malloc`ed block
is a parameter of the model. -/
def intcpy (h : Heap) (a c : Nat) : Heap :=
  copyWords h a c (1 + h a).toNat

/-- C `objcpy`: the fresh block `c` receives `n = 1 + 2*len` words
(header plus tag/payload pairs). -/
def objcpy (h : Heap) (a c : Nat) : Heap :=
  copyWords h a c (1 + 2 * h a).toNat

/-- The loop of C `intfill`: writes payload slots `a+1 .. a+len`. -/
def intfillLoop (h : Heap) (a : Nat) (v : Int) : Nat → Heap
  | 0 => h
  | Nat.succ k => writeWord (intfillLoop h a v k) (a + 1 + k) v

/-- C `intfill`. -/
def intfill (h : Heap) (a : Nat) (v : Int) : Heap :=
  intfillLoop h a v (h a).toNat

/-- The loop of C `objfill`: pair `k` receives tag `t` at `a+1+2k` and
payload `v` at `a+2+2k`. -/
def objfillLoop (h : Heap) (a : Nat) (t v : Int) : Nat → Heap
  | 0 => h
  | Nat.succ k =>
      writeWord (writeWord (objfillLoop h a t v k) (a + 1 + 2 * k) t) (a + 2 + 2 * k) v

/-- C `objfill`. -/
def objfill (h : Heap) (a : Nat) (t v : Int) : Heap :=
  objfillLoop h a t v (h a).toNat

/-- The pair loop of C `objcmp`, abstracted over the recursive call
`rcall` (which the real `objcmp` instantiates with itself at smaller
fuel).  Pair base offset `j`: tag words at `a+j`/`b+j`, payload words at
`a+j+1`/`b+j+1`, matching the C reads `tag1 = obj1[j]; tag2 = obj2[j++];`
then `obj1[j] == obj2[j]`.  The three-way policy of the C body:
payloads bitwise equal ⇒ continue; tags differ or tag 0 ⇒ return 0;
otherwise recurse on the payloads as addresses. -/
def objcmpLoopGen (h : Heap) (rcall : Nat → Nat → Option Int) (a b : Nat) :
    Nat → Nat → Option Int
  | _, 0 => some 1
  | j, Nat.succ k =>
      if h (a + j + 1) = h (b + j + 1) then
        objcmpLoopGen h rcall a b (j + 2) k
      else if h (a + j) ≠ h (b + j) ∨ h (a + j) = 0 then
        some 0
      else
        match rcall (h (a + j + 1)).toNat (h (b + j + 1)).toNat with
        | none => none
        | some r => if r = 0 then some 0 else objcmpLoopGen h rcall a b (j + 2) k

/-- C `objcmp` with a fuel bound on recursion depth: `none` models the
divergence that the C code exhibits past any finite recursion depth
(only reachable on cyclic or deeper-than-fuel object graphs). -/
def objcmp (h : Heap) : Nat → Nat → Nat → Option Int
  | 0, _, _ => none
  | Nat.succ fuel, a, b =>
      if h a ≠ h b then some 0
      else objcmpLoopGen h (objcmp h fuel) a b 1 (h a).toNat

/-- C `assertion`: `assert(boolean)` aborts the process iff the word is
zero.  Abort is modelled as `none`. -/
def assertion (b : Int) : Option Unit :=
  if b = 0 then none else some ()

/-!
Abstract shapes of tagged objects, used to state structural equality
of nested objects living at different addresses (spec §3 data model:
tag 0 = scalar payload, nonzero tag = pointer to a nested tagged
object).  An object is its list of (tag, payload) pairs; the header
count is the list length.
-/

/-- One (tag, payload) pair of a tagged object: either a scalar pair
(arbitrary tag word, raw payload word) or a reference pair (nonzero
tag, payload pointing at a nested object given by its pair list). -/
inductive TPair : Type where
  | scalar : Int → Int → TPair
  | ref : Int → List TPair → TPair

mutual

/-- Predicate `reprPairs h a j ps`: starting at pair base offset `j` inside the
object at address `a`, the heap realises the pair list `ps`. -/
def reprPairs (h : Heap) (a : Nat) : Nat → List TPair → Bool
  | _, [] => true
  | j, p :: rest => reprPair h (a + j) p && reprPairs h a (j + 2) rest

/-- Predicate `reprPair h addr p`: the two words at `addr` (tag) and `addr + 1`
(payload) realise the abstract pair `p`; a reference pair demands a
nonzero tag and that the payload, read as an address, realises the
nested object. -/
def reprPair (h : Heap) (addr : Nat) : TPair → Bool
  | .scalar tg v => decide (h addr = tg) && decide (h (addr + 1) = v)
  | .ref tg ps =>
      decide (¬ tg = 0) && decide (h addr = tg) &&
      decide (h ((h (addr + 1)).toNat) = (ps.length : Int)) &&
      reprPairs h ((h (addr + 1)).toNat) 1 ps

end

/-- Predicate `reprObj h a ps`: the heap realises, at address `a`, a tagged object
with header count `ps.length` whose pairs realise `ps`. -/
def reprObj (h : Heap) (a : Nat) (ps : List TPair) : Bool :=
  decide (h a = (ps.length : Int)) && reprPairs h a 1 ps

mutual

/-- Nesting depth of a pair list (0 when no reference pairs occur). -/
def depthPairs : List TPair → Nat
  | [] => 0
  | p :: rest => max (depthPair p) (depthPairs rest)

/-- Nesting depth of a single pair. -/
def depthPair : TPair → Nat
  | .scalar _ _ => 0
  | .ref _ ps => depthPairs ps + 1

end

/-!
Concrete heaps used to exercise the theorems on explicit inputs.
-/

/-- A heap holding the spec §8 example flat arrays: `A = [3;1,2,3]` at
address 0, `C = [3;1,2,4]` at address 10, and a header-only object of
count 2 at address 20. -/
def hA : Heap := fun x =>
  if x = 0 then 3 else if x = 1 then 1 else if x = 2 then 2 else if x = 3 then 3
  else if x = 10 then 3 else if x = 11 then 1 else if x = 12 then 2 else if x = 13 then 4
  else if x = 20 then 2 else 0

/-- A heap holding two tagged objects at addresses 0 and 10, each one
pair `(tag 5, pointer)`, whose pointers lead to distinct addresses 20
and 30 holding structurally identical nested objects `[(0, 7)]`. -/
def hT : Heap := fun x =>
  if x = 0 then 1 else if x = 1 then 5 else if x = 2 then 20
  else if x = 10 then 1 else if x = 11 then 5 else if x = 12 then 30
  else if x = 20 then 1 else if x = 21 then 0 else if x = 22 then 7
  else if x = 30 then 1 else if x = 31 then 0 else if x = 32 then 7
  else 0

/-- The abstract shape shared by the two tagged objects of `hT`. -/
def tT : List TPair := [.ref 5 [.scalar 0 7]]

/-!
Helper lemmas about the loops.
-/

theorem intcmpLoop_refl (h : Heap) (a : Nat) : ∀ j k, intcmpLoop h a a j k = 1 := by
  intro j k
  induction k generalizing j with
  | zero => rfl
  | succ k ih => simp [intcmpLoop, ih]

theorem intcmpLoop_symm (h : Heap) (a b : Nat) :
    ∀ j k, intcmpLoop h a b j k = intcmpLoop h b a j k := by
  intro j k
  induction k generalizing j with
  | zero => rfl
  | succ k ih =>
      simp only [intcmpLoop]
      by_cases hab : h (a + j) = h (b + j)
      · simp [hab, ih]
      · have hba : ¬ h (b + j) = h (a + j) := fun e => hab e.symm
        simp [hab, hba]

theorem intcmpLoop_all_eq (h : Heap) (a b : Nat) :
    ∀ j k, (∀ i, i < k → h (a + (j + i)) = h (b + (j + i))) → intcmpLoop h a b j k = 1 := by
  intro j k
  induction k generalizing j with
  | zero => intro _; rfl
  | succ k ih =>
      intro hall
      have h0 : h (a + j) = h (b + j) := by
        have := hall 0 (Nat.succ_pos k)
        simpa using this
      have hrest : ∀ i, i < k → h (a + (j + 1 + i)) = h (b + (j + 1 + i)) := by
        intro i hi
        have := hall (1 + i) (by omega)
        have e : j + (1 + i) = j + 1 + i := by omega
        rwa [e] at this
      simp [intcmpLoop, h0, ih (j + 1) hrest]

theorem objcmpLoopGen_refl (h : Heap) (rcall : Nat → Nat → Option Int) (a : Nat) :
    ∀ j k, objcmpLoopGen h rcall a a j k = some 1 := by
  intro j k
  induction k generalizing j with
  | zero => rfl
  | succ k ih => simp [objcmpLoopGen, ih]

theorem objcmpLoopGen_symm (h : Heap) (r1 r2 : Nat → Nat → Option Int) (a b : Nat)
    (hr : ∀ x y, r1 x y = r2 y x) :
    ∀ j k, objcmpLoopGen h r1 a b j k = objcmpLoopGen h r2 b a j k := by
  intro j k
  induction k generalizing j with
  | zero => rfl
  | succ k ih =>
      simp only [objcmpLoopGen]
      by_cases hp : h (a + j + 1) = h (b + j + 1)
      · rw [if_pos hp, if_pos hp.symm]
        exact ih (j + 2)
      · have hp' : ¬ h (b + j + 1) = h (a + j + 1) := fun e => hp e.symm
        rw [if_neg hp, if_neg hp']
        by_cases ht : h (a + j) = h (b + j)
        · by_cases h0 : h (a + j) = 0
          · rw [if_pos (Or.inr h0), if_pos (Or.inr (ht.symm.trans h0))]
          · have h0' : ¬ h (b + j) = 0 := fun e => h0 (ht.trans e)
            rw [if_neg (fun c => c.elim (fun hne => hne ht) h0),
              if_neg (fun c => c.elim (fun hne => hne ht.symm) h0')]
            rw [hr]
            cases r2 (h (b + j + 1)).toNat (h (a + j + 1)).toNat with
            | none => rfl
            | some r =>
                dsimp only
                by_cases hr0 : r = 0
                · rw [if_pos hr0, if_pos hr0]
                · rw [if_neg hr0, if_neg hr0]
                  exact ih (j + 2)
        · have ht' : ¬ h (b + j) = h (a + j) := fun e => ht e.symm
          rw [if_pos (Or.inl ht), if_pos (Or.inl ht')]

theorem objcmp_symm (h : Heap) : ∀ fuel a b, objcmp h fuel a b = objcmp h fuel b a := by
  intro fuel
  induction fuel with
  | zero => intro a b; rfl
  | succ fuel ih =>
      intro a b
      simp only [objcmp]
      by_cases hlen : h a = h b
      · simp only [hlen, ne_eq, not_true_eq_false, if_false]
        rw [objcmpLoopGen_symm h (objcmp h fuel) (objcmp h fuel) a b (fun x y => ih x y)]
      · have hlen' : ¬ h b = h a := fun e => hlen e.symm
        simp [hlen, hlen']

/-!
Claim theorems: comparison basics.
-/

/-- C2: if the header count words of the two objects differ, both
`intcmp` and `objcmp` return 0 (`objcmp` needs one unit of fuel to take
a step at all).  The result is 0 for every heap with those two header
words, so no payload word can influence it. -/
theorem cmp_length_shortcircuit (h : Heap) (a b fuel : Nat) (hne : h a ≠ h b) :
    intcmp h a b = 0 ∧ objcmp h (fuel + 1) a b = some 0 := by
  constructor
  · simp [intcmp, hne]
  · simp [objcmp, hne]

theorem cmp_length_shortcircuit_witness :
    intcmp hA 0 20 = 0 ∧ objcmp hA 1 0 20 = some 0 :=
  cmp_length_shortcircuit hA 0 20 0 (by decide)

/-- C3: reflexivity — comparing any object with itself (same address)
yields true for both variants; the tagged comparison never recurses in
this case because every payload word is bitwise equal to itself, so one
unit of fuel suffices for any heap. -/
theorem cmp_refl (h : Heap) (a fuel : Nat) :
    intcmp h a a = 1 ∧ objcmp h (fuel + 1) a a = some 1 := by
  constructor
  · simp [intcmp, intcmpLoop_refl]
  · simp [objcmp, objcmpLoopGen_refl]

/-- C4: symmetry — both comparison functions are symmetric in their two
arguments, for every heap and (for `objcmp`) at every fuel level. -/
theorem cmp_symm (h : Heap) (a b fuel : Nat) :
    intcmp h a b = intcmp h b a ∧ objcmp h fuel a b = objcmp h fuel b a := by
  constructor
  · by_cases hlen : h a = h b
    · simp only [intcmp, hlen, ne_eq, not_true_eq_false, if_false]
      rw [intcmpLoop_symm]
    · have hlen' : ¬ h b = h a := fun e => hlen e.symm
      simp [intcmp, hlen, hlen']
  · exact objcmp_symm h fuel a b

/-- C1: the per-pair policy of tagged-object compare, stated for an
arbitrary recursive-call function `rcall` (so the conclusions of the
non-recursive cases hold independently of any recursion): with equal
counts the comparison runs the pair loop; an exhausted loop yields 1;
a pair with bitwise-equal payload words is passed regardless of tags;
otherwise differing tags or a zero shared tag yield 0 immediately
without invoking `rcall`; otherwise the payloads are recursed upon as
addresses, 0 propagating immediately; and the loop yields 1 only when
the current pair passes and the remaining pairs also yield 1. -/
theorem objcmp_pair_policy (h : Heap) (rcall : Nat → Nat → Option Int)
    (a b j k fuel : Nat) :
    (objcmp h (fuel + 1) a b
        = if h a ≠ h b then some 0
          else objcmpLoopGen h (objcmp h fuel) a b 1 (h a).toNat)
    ∧ objcmpLoopGen h rcall a b j 0 = some 1
    ∧ (h (a + j + 1) = h (b + j + 1) →
        objcmpLoopGen h rcall a b j (k + 1) = objcmpLoopGen h rcall a b (j + 2) k)
    ∧ (¬ h (a + j + 1) = h (b + j + 1) →
        (h (a + j) ≠ h (b + j) ∨ h (a + j) = 0) →
        objcmpLoopGen h rcall a b j (k + 1) = some 0)
    ∧ (¬ h (a + j + 1) = h (b + j + 1) →
        h (a + j) = h (b + j) → ¬ h (a + j) = 0 →
        objcmpLoopGen h rcall a b j (k + 1)
          = match rcall (h (a + j + 1)).toNat (h (b + j + 1)).toNat with
            | none => none
            | some r => if r = 0 then some 0 else objcmpLoopGen h rcall a b (j + 2) k)
    ∧ (objcmpLoopGen h rcall a b j (k + 1) = some 1 →
        (h (a + j + 1) = h (b + j + 1)
          ∨ (h (a + j) = h (b + j) ∧ ¬ h (a + j) = 0
              ∧ ∃ r, rcall (h (a + j + 1)).toNat (h (b + j + 1)).toNat = some r
                  ∧ ¬ r = 0))
        ∧ objcmpLoopGen h rcall a b (j + 2) k = some 1) := by
  refine ⟨rfl, rfl, ?_, ?_, ?_, ?_⟩
  · intro hp
    simp only [objcmpLoopGen]
    rw [if_pos hp]
  · intro hp htag
    simp only [objcmpLoopGen]
    rw [if_neg hp, if_pos htag]
  · intro hp hteq ht0
    simp only [objcmpLoopGen]
    rw [if_neg hp, if_neg (fun c => c.elim (fun hne => hne hteq) ht0)]
  · intro hres
    simp only [objcmpLoopGen] at hres
    by_cases hp : h (a + j + 1) = h (b + j + 1)
    · rw [if_pos hp] at hres
      exact ⟨Or.inl hp, hres⟩
    · rw [if_neg hp] at hres
      by_cases htag : h (a + j) ≠ h (b + j) ∨ h (a + j) = 0
      · rw [if_pos htag] at hres
        exact absurd hres (by decide)
      · rw [if_neg htag] at hres
        push_neg at htag
        obtain ⟨hteq, ht0⟩ := htag
        cases hrc : rcall (h (a + j + 1)).toNat (h (b + j + 1)).toNat with
        | none =>
            rw [hrc] at hres
            exact absurd hres (by simp)
        | some r =>
            rw [hrc] at hres
            dsimp only at hres
            by_cases hr0 : r = 0
            · rw [if_pos hr0] at hres
              exact absurd hres (by decide)
            · rw [if_neg hr0] at hres
              exact ⟨Or.inr ⟨hteq, ht0, r, rfl, hr0⟩, hres⟩

theorem objcmp_pair_policy_witness :
    objcmpLoopGen hT (objcmp hT 1) 20 30 3 1 = objcmpLoopGen hT (objcmp hT 1) 20 30 5 0
    ∧ objcmpLoopGen hA (fun _ _ => none) 0 20 1 1 = some 0
    ∧ objcmpLoopGen hT (objcmp hT 1) 0 10 1 1 = some 1 := by
  refine ⟨?_, ?_, ?_⟩
  · exact (objcmp_pair_policy hT (objcmp hT 1) 20 30 3 0 0).2.2.1 (by decide)
  · exact (objcmp_pair_policy hA (fun _ _ => none) 0 20 1 0 0).2.2.2.1
      (by decide) (by decide)
  · have := (objcmp_pair_policy hT (objcmp hT 1) 0 10 1 0 0).2.2.2.2.1
      (by decide) (by decide) (by decide)
    rw [this]
    decide

/-!
Copy lemmas: the copy loop writes exactly the destination block, and,
when the two blocks are disjoint, fills it with the source words.
-/

theorem copyWords_frame (h : Heap) (src dst : Nat) :
    ∀ n x, x < dst ∨ dst + n ≤ x → copyWords h src dst n x = h x := by
  intro n
  induction n with
  | zero => intro x _; rfl
  | succ n ih =>
      intro x hx
      simp only [copyWords, writeWord]
      rw [if_neg (by omega : ¬ x = dst + n)]
      exact ih x (by omega)

theorem copyWords_get (h : Heap) (src dst n : Nat)
    (hd : src + n ≤ dst ∨ dst + n ≤ src) :
    ∀ m, m ≤ n → ∀ i, i < m → copyWords h src dst m (dst + i) = h (src + i) := by
  intro m
  induction m with
  | zero => intro _ i hi; omega
  | succ m ih =>
      intro hm i hi
      simp only [copyWords, writeWord]
      by_cases he : i = m
      · subst he
        rw [if_pos rfl]
        exact copyWords_frame h src dst i (src + i) (by omega)
      · rw [if_neg (by omega : ¬ dst + i = dst + m)]
        exact ih (by omega) i (by omega)

/-- The pair loop passes every pair whose words coincide between the two
objects, for any recursive-call function: bitwise-identical payload
words never trigger recursion. -/
theorem objcmpLoopGen_all_eq (h : Heap) (rcall : Nat → Nat → Option Int) (a b : Nat) :
    ∀ j k, (∀ d, d < 2 * k → h (a + (j + d)) = h (b + (j + d))) →
      objcmpLoopGen h rcall a b j k = some 1 := by
  intro j k
  induction k generalizing j with
  | zero => intro _; rfl
  | succ k ih =>
      intro hall
      have hp : h (a + j + 1) = h (b + j + 1) := by
        have := hall 1 (by omega)
        have e1 : a + (j + 1) = a + j + 1 := by omega
        have e2 : b + (j + 1) = b + j + 1 := by omega
        rwa [e1, e2] at this
      simp only [objcmpLoopGen]
      rw [if_pos hp]
      refine ih (j + 2) ?_
      intro d hd
      have := hall (2 + d) (by omega)
      have e1 : a + (j + (2 + d)) = a + (j + 2 + d) := by omega
      have e2 : b + (j + (2 + d)) = b + (j + 2 + d) := by omega
      rwa [e1, e2] at this

/-- C5: clone fidelity.  With `c` (resp. `c2`) the address of the fresh
`malloc`ed block — disjoint from the source block, as a fresh
allocation is — a cloned flat array compares equal to its source, a
cloned tagged object compares equal to its source (one unit of fuel
suffices: all payload words are bitwise-identical, so no recursion
happens), and in both cases the clone's address differs from the
source's. -/
theorem clone_fidelity (h : Heap) (a c a2 c2 fuel : Nat)
    (hlen : 0 ≤ h a)
    (hd : a + (1 + h a).toNat ≤ c ∨ c + (1 + h a).toNat ≤ a)
    (hlen2 : 0 ≤ h a2)
    (hd2 : a2 + (1 + 2 * h a2).toNat ≤ c2 ∨ c2 + (1 + 2 * h a2).toNat ≤ a2) :
    (intcmp (intcpy h a c) a c = 1 ∧ c ≠ a)
    ∧ (objcmp (objcpy h a2 c2) (fuel + 1) a2 c2 = some 1 ∧ c2 ≠ a2) := by
  constructor
  · have hn : (1 + h a).toNat = 1 + (h a).toNat := by omega
    have hsrc : ∀ x : Nat, a ≤ x → x < a + (1 + h a).toNat →
        intcpy h a c x = h x := by
      intro x hx1 hx2
      exact copyWords_frame h a c (1 + h a).toNat x (by omega)
    have hdst : ∀ i, i < (1 + h a).toNat → intcpy h a c (c + i) = h (a + i) :=
      copyWords_get h a c (1 + h a).toNat hd (1 + h a).toNat le_rfl
    have hha : intcpy h a c a = h a := hsrc a le_rfl (by omega)
    have hhc : intcpy h a c c = h a := by
      have := hdst 0 (by omega)
      simpa using this
    constructor
    · rw [intcmp, if_neg (by rw [hha, hhc]; simp)]
      rw [hha]
      refine intcmpLoop_all_eq (intcpy h a c) a c 1 (h a).toNat ?_
      intro i hi
      rw [hsrc (a + (1 + i)) (by omega) (by omega)]
      rw [hdst (1 + i) (by omega)]
    · omega
  · have hn : (1 + 2 * h a2).toNat = 1 + 2 * (h a2).toNat := by omega
    have hsrc : ∀ x : Nat, a2 ≤ x → x < a2 + (1 + 2 * h a2).toNat →
        objcpy h a2 c2 x = h x := by
      intro x hx1 hx2
      exact copyWords_frame h a2 c2 (1 + 2 * h a2).toNat x (by omega)
    have hdst : ∀ i, i < (1 + 2 * h a2).toNat → objcpy h a2 c2 (c2 + i) = h (a2 + i) :=
      copyWords_get h a2 c2 (1 + 2 * h a2).toNat hd2 (1 + 2 * h a2).toNat le_rfl
    have hha : objcpy h a2 c2 a2 = h a2 := hsrc a2 le_rfl (by omega)
    have hhc : objcpy h a2 c2 c2 = h a2 := by
      have := hdst 0 (by omega)
      simpa using this
    constructor
    · simp only [objcmp]
      rw [if_neg (by rw [hha, hhc]; simp)]
      rw [hha]
      refine objcmpLoopGen_all_eq (objcpy h a2 c2) (objcmp (objcpy h a2 c2) fuel)
        a2 c2 1 (h a2).toNat ?_
      intro d hd'
      rw [hsrc (a2 + (1 + d)) (by omega) (by omega)]
      rw [hdst (1 + d) (by omega)]
    · omega

theorem clone_fidelity_witness :
    (intcmp (intcpy hA 0 30) 0 30 = 1 ∧ (30 : Nat) ≠ 0)
    ∧ (objcmp (objcpy hT 20 40) 1 20 40 = some 1 ∧ (40 : Nat) ≠ 20) :=
  clone_fidelity hA 0 30 20 40 0 (by decide) (by decide) (by decide) (by decide)

/-- C7: tagged-object clone is shallow — the payload word of every pair
of the clone is the bitwise copy of the source's payload word (so a
payload holding the address of a nested object still holds that same
address in the clone: the nested object is aliased, not duplicated),
and the source's payload word itself is untouched. -/
theorem objcpy_shallow (h : Heap) (a c i : Nat)
    (hd : a + (1 + 2 * h a).toNat ≤ c ∨ c + (1 + 2 * h a).toNat ≤ a)
    (hi : i < (h a).toNat) :
    objcpy h a c (c + (2 + 2 * i)) = h (a + (2 + 2 * i))
    ∧ objcpy h a c (a + (2 + 2 * i)) = h (a + (2 + 2 * i)) := by
  constructor
  · exact copyWords_get h a c (1 + 2 * h a).toNat hd (1 + 2 * h a).toNat le_rfl
      (2 + 2 * i) (by omega)
  · exact copyWords_frame h a c (1 + 2 * h a).toNat (a + (2 + 2 * i)) (by omega)

theorem objcpy_shallow_witness :
    objcpy hT 0 40 (40 + (2 + 2 * 0)) = hT (0 + (2 + 2 * 0))
    ∧ objcpy hT 0 40 (0 + (2 + 2 * 0)) = hT (0 + (2 + 2 * 0)) :=
  objcpy_shallow hT 0 40 0 (by decide) (by decide)

/-- C10: both clone operations write only into the destination block
(the fresh allocation): every address outside it — in particular every
word of the disjoint source object, header and payloads alike — holds
the same value after the call as before.  The two comparison
operations take the heap only as an input and return a bare value, so
in this embedding they cannot write at all, mirroring the `const`
read-only pointers of the C source. -/
theorem clone_source_frame (h : Heap) (a c x : Nat) :
    ((x < c ∨ c + (1 + h a).toNat ≤ x) → intcpy h a c x = h x)
    ∧ ((x < c ∨ c + (1 + 2 * h a).toNat ≤ x) → objcpy h a c x = h x) :=
  ⟨fun hx => copyWords_frame h a c (1 + h a).toNat x hx,
   fun hx => copyWords_frame h a c (1 + 2 * h a).toNat x hx⟩

theorem clone_source_frame_witness :
    intcpy hA 0 30 3 = hA 3 ∧ objcpy hA 0 30 3 = hA 3 :=
  ⟨(clone_source_frame hA 0 30 3).1 (by decide),
   (clone_source_frame hA 0 30 3).2 (by decide)⟩

/-!
Fill lemmas: the fill loops write exactly the payload (pair) slots.
-/

theorem intfillLoop_frame (h : Heap) (a : Nat) (v : Int) :
    ∀ k x, x < a + 1 ∨ a + 1 + k ≤ x → intfillLoop h a v k x = h x := by
  intro k
  induction k with
  | zero => intro x _; rfl
  | succ k ih =>
      intro x hx
      simp only [intfillLoop, writeWord]
      rw [if_neg (by omega : ¬ x = a + 1 + k)]
      exact ih x (by omega)

theorem intfillLoop_get (h : Heap) (a : Nat) (v : Int) :
    ∀ k i, i < k → intfillLoop h a v k (a + 1 + i) = v := by
  intro k
  induction k with
  | zero => intro i hi; omega
  | succ k ih =>
      intro i hi
      simp only [intfillLoop, writeWord]
      by_cases he : i = k
      · subst he
        rw [if_pos rfl]
      · rw [if_neg (by omega : ¬ a + 1 + i = a + 1 + k)]
        exact ih i (by omega)

theorem objfillLoop_frame (h : Heap) (a : Nat) (t v : Int) :
    ∀ k x, x < a + 1 ∨ a + 1 + 2 * k ≤ x → objfillLoop h a t v k x = h x := by
  intro k
  induction k with
  | zero => intro x _; rfl
  | succ k ih =>
      intro x hx
      simp only [objfillLoop, writeWord]
      rw [if_neg (by omega : ¬ x = a + 2 + 2 * k), if_neg (by omega : ¬ x = a + 1 + 2 * k)]
      exact ih x (by omega)

theorem objfillLoop_get (h : Heap) (a : Nat) (t v : Int) :
    ∀ k i, i < k →
      objfillLoop h a t v k (a + 1 + 2 * i) = t ∧ objfillLoop h a t v k (a + 2 + 2 * i) = v := by
  intro k
  induction k with
  | zero => intro i hi; omega
  | succ k ih =>
      intro i hi
      simp only [objfillLoop, writeWord]
      by_cases he : i = k
      · subst he
        constructor
        · rw [if_neg (by omega : ¬ a + 1 + 2 * i = a + 2 + 2 * i), if_pos rfl]
        · rw [if_pos rfl]
      · constructor
        · rw [if_neg (by omega : ¬ a + 1 + 2 * i = a + 2 + 2 * k),
            if_neg (by omega : ¬ a + 1 + 2 * i = a + 1 + 2 * k)]
          exact (ih i (by omega)).1
        · rw [if_neg (by omega : ¬ a + 2 + 2 * i = a + 2 + 2 * k),
            if_neg (by omega : ¬ a + 2 + 2 * i = a + 1 + 2 * k)]
          exact (ih i (by omega)).2

/-- C6: fill uniformity and framing.  After `intfill` each of the `n`
payload slots reads `v`; after `objfill` each of the `n` pairs reads
`(t, v)`; in both cases the count header word is unchanged and no word
below the object or past its last slot is written. -/
theorem fill_uniform (h : Heap) (a a2 : Nat) (v t v2 : Int) :
    (∀ i, i < (h a).toNat → intfill h a v (a + 1 + i) = v)
    ∧ intfill h a v a = h a
    ∧ (∀ x, x < a + 1 ∨ a + 1 + (h a).toNat ≤ x → intfill h a v x = h x)
    ∧ (∀ i, i < (h a2).toNat →
        objfill h a2 t v2 (a2 + 1 + 2 * i) = t ∧ objfill h a2 t v2 (a2 + 2 + 2 * i) = v2)
    ∧ objfill h a2 t v2 a2 = h a2
    ∧ (∀ x, x < a2 + 1 ∨ a2 + 1 + 2 * (h a2).toNat ≤ x → objfill h a2 t v2 x = h x) := by
  refine ⟨?_, ?_, ?_, ?_, ?_, ?_⟩
  · intro i hi
    exact intfillLoop_get h a v (h a).toNat i hi
  · exact intfillLoop_frame h a v (h a).toNat a (by omega)
  · intro x hx
    exact intfillLoop_frame h a v (h a).toNat x hx
  · intro i hi
    exact objfillLoop_get h a2 t v2 (h a2).toNat i hi
  · exact objfillLoop_frame h a2 t v2 (h a2).toNat a2 (by omega)
  · intro x hx
    exact objfillLoop_frame h a2 t v2 (h a2).toNat x hx

theorem fill_uniform_witness :
    intfill hA 0 9 (0 + 1 + 1) = 9
    ∧ intfill hA 0 9 0 = hA 0
    ∧ intfill hA 0 9 5 = hA 5
    ∧ (objfill hT 20 4 8 (20 + 1 + 2 * 0) = 4 ∧ objfill hT 20 4 8 (20 + 2 + 2 * 0) = 8)
    ∧ objfill hT 20 4 8 20 = hT 20
    ∧ objfill hT 20 4 8 24 = hT 24 :=
  ⟨(fill_uniform hA 0 20 9 4 8).1 1 (by decide),
   (fill_uniform hA 0 20 9 4 8).2.1,
   (fill_uniform hA 0 20 9 4 8).2.2.1 5 (by decide),
   (fill_uniform hT 0 20 9 4 8).2.2.2.1 0 (by decide),
   (fill_uniform hT 0 20 9 4 8).2.2.2.2.1,
   (fill_uniform hT 0 20 9 4 8).2.2.2.2.2 24 (by decide)⟩

/-- C9: the assertion primitive returns normally (with no effect — it
has no output and touches no heap) on every nonzero word, and aborts
(modelled `none`) exactly on the zero word; it is the only operation of
the embedding whose result can signal an abort. -/
theorem assertion_spec (b : Int) :
    (¬ b = 0 → assertion b = some ()) ∧ (assertion b = none ↔ b = 0) := by
  constructor
  · intro hb
    simp [assertion, hb]
  · constructor
    · intro hn
      by_contra hb
      simp [assertion, hb] at hn
    · intro hb
      simp [assertion, hb]

theorem assertion_spec_witness :
    assertion 1 = some () ∧ assertion 0 = none :=
  ⟨(assertion_spec 1).1 (by decide), (assertion_spec 0).2.mpr rfl⟩

/-!
Nested structural equality: two heap objects realising the same
abstract shape compare equal, whatever their addresses.
-/

/-- The pair loop accepts two realisations of the same pair list,
given that the recursive calls (at fuel `f`) already accept two
realisations of any shallower object. -/
theorem objcmpLoopGen_repr (h : Heap) (f a b : Nat)
    (ihobj : ∀ qs a2 b2, depthPairs qs < f → reprObj h a2 qs = true →
      reprObj h b2 qs = true → objcmp h f a2 b2 = some 1) :
    ∀ ps j, depthPairs ps ≤ f →
      reprPairs h a j ps = true → reprPairs h b j ps = true →
      objcmpLoopGen h (objcmp h f) a b j ps.length = some 1 := by
  intro ps
  induction ps with
  | nil => intro j _ _ _; rfl
  | cons p rest ih =>
      intro j hdep hra hrb
      simp only [reprPairs, Bool.and_eq_true] at hra hrb
      obtain ⟨hpa, hresta⟩ := hra
      obtain ⟨hpb, hrestb⟩ := hrb
      have hdepp : depthPair p ≤ f := by
        simp only [depthPairs] at hdep
        omega
      have hdeprest : depthPairs rest ≤ f := by
        simp only [depthPairs] at hdep
        omega
      show objcmpLoopGen h (objcmp h f) a b j (rest.length + 1) = some 1
      cases p with
      | scalar tg v =>
          simp only [reprPair, Bool.and_eq_true, decide_eq_true_eq] at hpa hpb
          obtain ⟨hta, hva⟩ := hpa
          obtain ⟨htb, hvb⟩ := hpb
          simp only [objcmpLoopGen]
          rw [if_pos (by rw [hva, hvb])]
          exact ih (j + 2) hdeprest hresta hrestb
      | ref tg qs =>
          simp only [reprPair, Bool.and_eq_true, decide_eq_true_eq] at hpa hpb
          obtain ⟨⟨⟨ht0, hta⟩, hlena⟩, hqsa⟩ := hpa
          obtain ⟨⟨⟨_, htb⟩, hlenb⟩, hqsb⟩ := hpb
          simp only [objcmpLoopGen]
          by_cases hpay : h (a + j + 1) = h (b + j + 1)
          · rw [if_pos hpay]
            exact ih (j + 2) hdeprest hresta hrestb
          · rw [if_neg hpay,
              if_neg (fun c => c.elim (fun hne => hne (hta.trans htb.symm))
                (fun z => ht0 (hta.symm.trans z)))]
            have hrec : objcmp h f (h (a + j + 1)).toNat (h (b + j + 1)).toNat = some 1 := by
              refine ihobj qs (h (a + j + 1)).toNat (h (b + j + 1)).toNat ?_ ?_ ?_
              · simp only [depthPair] at hdepp
                omega
              · simp only [reprObj, Bool.and_eq_true, decide_eq_true_eq]
                exact ⟨hlena, hqsa⟩
              · simp only [reprObj, Bool.and_eq_true, decide_eq_true_eq]
                exact ⟨hlenb, hqsb⟩
            rw [hrec]
            dsimp only
            rw [if_neg (by decide : ¬ (1 : Int) = 0)]
            exact ih (j + 2) hdeprest hresta hrestb

/-- Any two realisations of the same abstract object shape compare
equal, given fuel exceeding the shape's nesting depth. -/
theorem objcmp_repr (h : Heap) :
    ∀ fuel ps a b, depthPairs ps < fuel →
      reprObj h a ps = true → reprObj h b ps = true →
      objcmp h fuel a b = some 1 := by
  intro fuel
  induction fuel with
  | zero => intro ps a b hd _ _; omega
  | succ f ihf =>
      intro ps a b hd hra hrb
      simp only [reprObj, Bool.and_eq_true, decide_eq_true_eq] at hra hrb
      obtain ⟨hlena, hpsa⟩ := hra
      obtain ⟨hlenb, hpsb⟩ := hrb
      simp only [objcmp]
      rw [if_neg (by rw [hlena, hlenb]; simp)]
      have hcount : (h a).toNat = ps.length := by
        rw [hlena]
        simp
      rw [hcount]
      exact objcmpLoopGen_repr h f a b (fun qs a2 b2 hd2 => ihf qs a2 b2 hd2)
        ps 1 (by omega) hpsa hpsb

/-- C8: two tagged objects realising the same abstract shape — equal
counts, pairwise equal tags, reference pairs carrying nonzero tags
whose payloads lead (possibly at different addresses) to structurally
identical nested objects — compare equal: structural equality does not
require address identity of nested references.  Fuel exceeding the
nesting depth is enough for the recursion to complete. -/
theorem objcmp_nested_structural (h : Heap) (ps : List TPair) (a b fuel : Nat)
    (hd : depthPairs ps < fuel)
    (ha : reprObj h a ps = true) (hb : reprObj h b ps = true) :
    objcmp h fuel a b = some 1 :=
  objcmp_repr h fuel ps a b hd ha hb

theorem objcmp_nested_structural_witness : objcmp hT 2 0 10 = some 1 :=
  objcmp_nested_structural hT tT 0 10 2 (by decide) (by decide) (by decide)

end Runtime
